import Mathlib

/-!
# Verification of the `inpeek-toggle-time-summary` aggregation engine

Shallow embedding of `src/aggregator.ts` (the aggregation core of the
repository).  Durations are modelled as integers (seconds, as delivered by the
Toggl API), hour totals as rationals.  JavaScript `Math.round` is modelled as
`fun q => Int.floor (q + 1/2)` (round half toward positive infinity, which is
JS semantics).  `String.prototype.split` with a one-character separator,
template-literal stringification of numbers, `parseInt`, and the `x || ''`
idiom are modelled explicitly below.  `localeCompare`-based sorting is modelled
as a stable sort (JS `Array.prototype.sort` is stable) with respect to
code-point string order; `extractDate` (a date-utility depending on the JS
`Date` runtime and the local timezone) is taken as a function parameter `ed`.
-/

/-- First-match lookup in an association list; models `Map.prototype.get`
(the maps built here always have distinct keys, insertion ordered). -/
def assocFind {κ α : Type} [DecidableEq κ] : List (κ × α) → κ → Option α
  | [], _ => none
  | (k2, v) :: rest, k => if k2 = k then some v else assocFind rest k

/-- Append `v` to the bucket of key `k`, creating the bucket at the end when
absent.  Models the `if (!m.has(k)) m.set(k, []); m.get(k)!.push(v)` pattern
on a JS `Map` (insertion-ordered keys). -/
def upsert {κ α : Type} [DecidableEq κ] : List (κ × List α) → κ → α → List (κ × List α)
  | [], k, v => [(k, [v])]
  | (k2, vs) :: rest, k, v =>
    if k2 = k then (k2, vs ++ [v]) :: rest else (k2, vs) :: upsert rest k v

/-- Models the JS expression `o || ''` for `o : string | undefined`:
`undefined` and the (falsy) empty string both give `''`. -/
def jsOrEmpty : Option String → String
  | none => ""
  | some s => if s = "" then "" else s

/-- Split a character list at every occurrence of `sep`; empty segments are
kept.  This is the semantics of JS `String.prototype.split` with a
one-character separator. -/
def splitChar (sep : Char) : List Char → List (List Char)
  | [] => [[]]
  | c :: cs =>
    if c = sep then [] :: splitChar sep cs
    else
      match splitChar sep cs with
      | [] => [[c]]
      | h :: t => (c :: h) :: t

/-- JS `s.split(sep)` for a one-character separator. -/
def jsSplit (sep : Char) (s : String) : List String :=
  (splitChar sep s.data).map (fun l => ⟨l⟩)

/-- Big-endian decimal digits of `n` (empty for `0`), with explicit fuel so
that the definition is structural. -/
def toDecChars : Nat → Nat → List Char
  | 0, _ => []
  | fuel + 1, n =>
    if n = 0 then [] else toDecChars fuel (n / 10) ++ [Nat.digitChar (n % 10)]

/-- Decimal stringification of a natural number; models the JS
template-literal conversion of a (natural) number to a string. -/
def jsNatToString (n : Nat) : String :=
  if n = 0 then "0" else ⟨toDecChars n n⟩

/-- JS `String.prototype.trim`: remove whitespace from both ends. -/
def jsTrim (s : String) : String :=
  ⟨(((s.data.dropWhile Char.isWhitespace).reverse.dropWhile Char.isWhitespace).reverse)⟩

/-- Strict code-point (lexicographic) comparison of character lists. -/
def charListLtb : List Char → List Char → Bool
  | [], [] => false
  | [], _ :: _ => true
  | _ :: _, [] => false
  | a :: as, b :: bs => if a < b then true else if b < a then false else charListLtb as bs

/-- Boolean code-point order on strings: `a` does not come strictly after
`b`.  Used to model sorting with `localeCompare` comparators (JS
`Array.prototype.sort` is stable; collation is modelled as code-point
order). -/
def strLeb (a b : String) : Bool := !charListLtb b.data a.data

/-- The propositional form of `strLeb`, the order relation the embedded
sorts use. -/
def localeLe (a b : String) : Prop := strLeb a b = true

instance : DecidableRel localeLe := fun a b => instDecidableEqBool (strLeb a b) true

/-- Accumulate leading decimal digits, stopping at the first non-digit:
the digit-consuming core of JS `parseInt(s, 10)`. -/
def parseGo : List Char → Nat → Nat
  | [], acc => acc
  | c :: cs, acc => if c.isDigit then parseGo cs (10 * acc + (c.toNat - 48)) else acc

/-- JS `parseInt(s, 10)` restricted to the digit strings that actually reach
it in the embedded code. -/
def parseIntNat (s : String) : Nat :=
  parseGo s.data 0

/-- JS `Math.round`: round half toward positive infinity. -/
def jsRound (q : ℚ) : ℤ := ⌊q + 1 / 2⌋

/-- The `Math.round(x * 100) / 100` idiom used twice in `aggregator.ts`. -/
def round2 (q : ℚ) : ℚ := (jsRound (q * 100) : ℚ) / 100

/-- `seen` holds the elements of the already-scanned prefix; an element is
kept iff it does not occur earlier.  This is the JS idiom
`arr.filter((d, i, self) => self.indexOf(d) === i)` (keep first occurrences,
comparing by exact string equality). -/
def jsDedupGo : List String → List String → List String
  | _, [] => []
  | seen, d :: rest =>
    if d ∈ seen then jsDedupGo (seen ++ [d]) rest
    else d :: jsDedupGo (seen ++ [d]) rest

/-- Deduplication keeping first occurrences, by exact string equality. -/
def jsDedup (l : List String) : List String := jsDedupGo [] l

/-! ## Data model (`src/toggl-client.ts`, `src/aggregator.ts`)

Only the fields read by the aggregation core are modelled. -/

/-- A Toggl time entry (the fields used by the aggregator): `project_id`
(nullable), `start` (ISO timestamp), `duration` (signed seconds; negative
means the timer is still running), `description` (nullable). -/
structure TogglTimeEntry where
  project_id : Option Nat
  start : String
  duration : Int
  description : Option String
deriving DecidableEq

/-- A Toggl project (the fields used by the aggregator). -/
structure TogglProject where
  id : Nat
  name : String
deriving DecidableEq

/-- One (project, day) summary produced by `aggregateTimeEntries`. -/
structure ProjectDaySummary where
  projectId : Option Nat
  projectName : String
  date : String
  totalHours : ℚ
  descriptions : String
deriving DecidableEq

/-- One day of the day-pivot view. -/
structure DaySummary where
  date : String
  dayName : String
  projects : List ProjectDaySummary
deriving DecidableEq

/-- One day inside a project of the project-pivot view. -/
structure DayEntry where
  date : String
  dayName : String
  totalHours : ℚ
  descriptions : String
deriving DecidableEq

/-- One project of the project-pivot view. -/
structure ProjectSummary where
  projectId : Option Nat
  projectName : String
  days : List DayEntry
  totalHours : ℚ
deriving DecidableEq

/-! ## The aggregation core (`src/aggregator.ts`) -/

/-- The grouping key `` `${projectId}|${date}` `` with
`projectId = entry.project_id ?? 'no-project'` (lines 55–57);
`ed` stands for `extractDate`. -/
def entryKey (ed : String → String) (entry : TogglTimeEntry) : String :=
  (match entry.project_id with
   | some pid => jsNatToString pid
   | none => "no-project") ++ "|" ++ ed entry.start

/-- `groupByProjectAndDay` (lines 44–66): buckets entries by
`` `${projectId}|${date}` ``, skipping entries with negative duration. -/
def groupByProjectAndDay (ed : String → String) (entries : List TogglTimeEntry) :
    List (String × List TogglTimeEntry) :=
  entries.foldl
    (fun grouped entry =>
      if entry.duration < 0 then grouped
      else upsert grouped (entryKey ed entry) entry)
    []

/-- `processDescriptions` (lines 76–84): map to `description`, drop `null`
and trim-empty values, deduplicate by exact equality keeping first
occurrences, join with `" / \n"`. -/
def processDescriptions (entries : List TogglTimeEntry) : String :=
  let descriptions :=
    (entries.map (fun e => e.description)).filterMap
      (fun desc =>
        match desc with
        | none => none
        | some s => if jsTrim s = "" then none else some s)
  String.intercalate " / \n" (jsDedup descriptions)

/-- `calculateTotalHours` (lines 91–95): sum the durations in seconds,
divide by 3600, `Math.round(hours * 100) / 100`. -/
def calculateTotalHours (entries : List TogglTimeEntry) : ℚ :=
  let totalSeconds : Int := entries.foldl (fun sum entry => sum + entry.duration) 0
  let hours : ℚ := (totalSeconds : ℚ) / 3600
  round2 hours

/-- The body of `aggregateTimeEntries`'s loop (lines 110–127): key split
back into id and date, name resolved through the projects map with
`'No Project'` as fallback. -/
def buildProjectDaySummary (projectsMap : List (Nat × TogglProject))
    (kv : String × List TogglTimeEntry) : ProjectDaySummary :=
  let parts := jsSplit '|' kv.1
  let projectIdStr := parts.getD 0 ""
  let date := parts.getD 1 ""
  let projectId : Option Nat :=
    if projectIdStr = "no-project" then none else some (parseIntNat projectIdStr)
  let projectName :=
    match projectId with
    | some pid =>
      match assocFind projectsMap pid with
      | some p => p.name
      | none => "No Project"
    | none => "No Project"
  { projectId := projectId
    projectName := projectName
    date := date
    totalHours := calculateTotalHours kv.2
    descriptions := processDescriptions kv.2 }

/-- `aggregateTimeEntries` (lines 103–130): one `ProjectDaySummary` per
group of `groupByProjectAndDay`. -/
def aggregateTimeEntries (ed : String → String) (entries : List TogglTimeEntry)
    (projectsMap : List (Nat × TogglProject)) : List ProjectDaySummary :=
  let grouped := groupByProjectAndDay ed entries
  grouped.map (buildProjectDaySummary projectsMap)

/-- `organizeByDay` (lines 139–159): one `DaySummary` per date of
`allDates`, in order; its projects are the summaries of that date sorted by
`projectName` (stable sort; `localeCompare` modelled as code-point order). -/
def organizeByDay (summaries : List ProjectDaySummary) (allDates : List String)
    (dayNames : List (String × String)) : List DaySummary :=
  allDates.map (fun date =>
    { date := date
      dayName := jsOrEmpty (assocFind dayNames date)
      projects :=
        List.insertionSort (fun a b => localeLe a.projectName b.projectName)
          (summaries.filter (fun s => s.date = date)) })

/-- The grouping key `` `${summary.projectId}|${summary.projectName}` `` of
`organizeByProject` (line 177); `null` stringifies to `"null"`. -/
def summaryKey (s : ProjectDaySummary) : String :=
  (match s.projectId with
   | some pid => jsNatToString pid
   | none => "null") ++ "|" ++ s.projectName

/-- The body of `organizeByProject`'s second loop (lines 187–209): rebuild
id and name from the key, sort the project's days by date, total =
re-rounded sum of day totals. -/
def buildProjectSummary (dayNames : List (String × String))
    (kv : String × List ProjectDaySummary) : ProjectSummary :=
  let parts := jsSplit '|' kv.1
  let projectIdStr := parts.getD 0 ""
  let projectName := parts.getD 1 ""
  let projectId : Option Nat :=
    if projectIdStr = "null" then none else some (parseIntNat projectIdStr)
  let days : List DayEntry :=
    (List.insertionSort (fun a b => localeLe a.date b.date) kv.2).map (fun pd =>
      { date := pd.date
        dayName := jsOrEmpty (assocFind dayNames pd.date)
        totalHours := pd.totalHours
        descriptions := pd.descriptions })
  let totalHours : ℚ := days.foldl (fun sum day => sum + day.totalHours) 0
  { projectId := projectId
    projectName := projectName
    days := days
    totalHours := round2 totalHours }

/-- `organizeByProject` (lines 168–213): group by
`` `${projectId}|${projectName}` ``, build one `ProjectSummary` per group,
final list sorted by `projectName`.  `allDates` is a parameter of the source
function but is never read by its body. -/
def organizeByProject (summaries : List ProjectDaySummary) (allDates : List String)
    (dayNames : List (String × String)) : List ProjectSummary :=
  let projectMap := summaries.foldl (fun m s => upsert m (summaryKey s) s) []
  let projectSummaries := projectMap.map (buildProjectSummary dayNames)
  List.insertionSort (fun a b => localeLe a.projectName b.projectName) projectSummaries


/-! ## Association-list grouping lemmas -/

section Grouping

variable {κ α : Type} [DecidableEq κ]

theorem assocFind_upsert (m : List (κ × List α)) (k k2 : κ) (v : α) :
    assocFind (upsert m k v) k2 =
      if k2 = k then some ((assocFind m k).getD [] ++ [v]) else assocFind m k2 := by
  induction m with
  | nil =>
    rcases eq_or_ne k k2 with rfl | h
    · simp [upsert, assocFind]
    · simp [upsert, assocFind, h, h.symm]
  | cons p rest ih =>
    obtain ⟨k1, vs⟩ := p
    by_cases hk1 : k1 = k
    · subst hk1
      rcases eq_or_ne k1 k2 with rfl | h2
      · simp [upsert, assocFind]
      · simp [upsert, assocFind, h2, h2.symm]
    · rcases eq_or_ne k1 k2 with rfl | h2
      · have hk2 : ¬ k1 = k := hk1
        simp [upsert, assocFind, hk2, (Ne.symm hk2 : k ≠ k1).symm]
      · simp [upsert, assocFind, hk1, h2, ih]

theorem keys_upsert (m : List (κ × List α)) (k : κ) (v : α) :
    (upsert m k v).map Prod.fst =
      if k ∈ m.map Prod.fst then m.map Prod.fst else m.map Prod.fst ++ [k] := by
  induction m with
  | nil => simp [upsert]
  | cons p rest ih =>
    obtain ⟨k1, vs⟩ := p
    by_cases h1 : k1 = k
    · subst h1; simp [upsert]
    · have h1s : ¬ k = k1 := fun h => h1 h.symm
      by_cases h2 : k ∈ rest.map Prod.fst <;> simp [upsert, h1, h1s, h2, ih]

theorem nodup_keys_upsert (m : List (κ × List α)) (k : κ) (v : α)
    (h : (m.map Prod.fst).Nodup) : ((upsert m k v).map Prod.fst).Nodup := by
  rw [keys_upsert]
  by_cases hk : k ∈ m.map Prod.fst
  · simpa [hk]
  · simpa [hk, List.nodup_append] using h

theorem mem_keys_upsert (m : List (κ × List α)) (k k2 : κ) (v : α) :
    k2 ∈ (upsert m k v).map Prod.fst ↔ k2 ∈ m.map Prod.fst ∨ k2 = k := by
  rw [keys_upsert]
  by_cases hk : k ∈ m.map Prod.fst
  · rw [if_pos hk]
    constructor
    · exact fun h => Or.inl h
    · rintro (h | rfl)
      · exact h
      · exact hk
  · rw [if_neg hk]
    simp

theorem assocFind_eq_of_mem_of_nodup {m : List (κ × List α)} {k : κ} {v : List α}
    (hm : (k, v) ∈ m) (hn : (m.map Prod.fst).Nodup) : assocFind m k = some v := by
  induction m with
  | nil => simp at hm
  | cons p rest ih =>
    obtain ⟨k1, v1⟩ := p
    simp only [List.map_cons, List.nodup_cons] at hn
    rcases List.mem_cons.mp hm with h | h
    · injection h with h1 h2
      subst h1; subst h2
      simp [assocFind]
    · have hne : ¬ k1 = k := by
        intro he
        subst he
        exact hn.1 (List.mem_map.mpr ⟨(k1, v), h, rfl⟩)
      rw [assocFind, if_neg hne]
      exact ih h hn.2

/-- The generic shape of the two grouping loops of `aggregator.ts`. -/
def groupFold (keyOf : α → κ) (l : List α) (init : List (κ × List α)) :
    List (κ × List α) :=
  l.foldl (fun m e => upsert m (keyOf e) e) init

theorem groupFold_cons (keyOf : α → κ) (e : α) (l : List α)
    (init : List (κ × List α)) :
    groupFold keyOf (e :: l) init = groupFold keyOf l (upsert init (keyOf e) e) := by
  simp [groupFold]

theorem assocFind_groupFold [DecidableEq α] (keyOf : α → κ) (l : List α)
    (init : List (κ × List α)) (k : κ) :
    assocFind (groupFold keyOf l init) k =
      match assocFind init k with
      | some vs => some (vs ++ l.filter (fun e => keyOf e = k))
      | none =>
        if l.filter (fun e => keyOf e = k) = [] then none
        else some (l.filter (fun e => keyOf e = k)) := by
  induction l generalizing init with
  | nil =>
    cases h : assocFind init k <;> simp [groupFold, h]
  | cons e rest ih =>
    rw [groupFold_cons, ih, assocFind_upsert]
    by_cases hk : keyOf e = k
    · subst hk
      cases h : assocFind init (keyOf e) with
      | none => simp [h, List.filter_cons]
      | some vs => simp [h, List.filter_cons]
    · have hk2 : ¬ k = keyOf e := fun h2 => hk h2.symm
      rw [if_neg hk2]
      cases h : assocFind init k with
      | none => simp [List.filter_cons, hk]
      | some vs => simp [List.filter_cons, hk]

theorem assocFind_groupFold_nil [DecidableEq α] (keyOf : α → κ) (l : List α) (k : κ) :
    assocFind (groupFold keyOf l []) k =
      if l.filter (fun e => keyOf e = k) = [] then none
      else some (l.filter (fun e => keyOf e = k)) := by
  rw [assocFind_groupFold]
  simp [assocFind]

theorem nodup_keys_groupFold (keyOf : α → κ) (l : List α) (init : List (κ × List α))
    (h : (init.map Prod.fst).Nodup) :
    ((groupFold keyOf l init).map Prod.fst).Nodup := by
  induction l generalizing init with
  | nil => simpa [groupFold]
  | cons e rest ih =>
    rw [groupFold_cons]
    exact ih _ (nodup_keys_upsert _ _ _ h)

theorem mem_keys_groupFold (keyOf : α → κ) (l : List α) (init : List (κ × List α))
    (k : κ) :
    k ∈ (groupFold keyOf l init).map Prod.fst ↔
      k ∈ init.map Prod.fst ∨ k ∈ l.map keyOf := by
  induction l generalizing init with
  | nil => simp [groupFold]
  | cons e rest ih =>
    rw [groupFold_cons, ih, mem_keys_upsert]
    simp only [List.map_cons, List.mem_cons]
    tauto

/-- Every binding of a key-grouped fold from the empty map is the (nonempty)
filter of the input at its key. -/
theorem bucket_eq_filter [DecidableEq α] (keyOf : α → κ) (l : List α) {k : κ} {vs : List α}
    (h : (k, vs) ∈ groupFold keyOf l []) :
    vs = l.filter (fun e => keyOf e = k) ∧ vs ≠ [] := by
  have hn : ((groupFold keyOf l []).map Prod.fst).Nodup :=
    nodup_keys_groupFold keyOf l [] (by simp)
  have hf := assocFind_eq_of_mem_of_nodup h hn
  rw [assocFind_groupFold_nil] at hf
  by_cases he : l.filter (fun e => keyOf e = k) = []
  · rw [if_pos he] at hf; cases hf
  · rw [if_neg he] at hf
    injection hf with hf
    subst hf
    exact ⟨rfl, he⟩

end Grouping

/-! ## Bridging and helper lemmas -/

theorem string_eq_of_data {a b : String} (h : a.data = b.data) : a = b := by
  cases a
  cases b
  cases h
  rfl

/-- A fold that skips some elements is the same fold over the filtered
input (the shape of the running-timer skip in `groupByProjectAndDay`). -/
theorem foldl_skip {α β : Type} (p : α → Prop) [DecidablePred p] (f : β → α → β) :
    ∀ (l : List α) (init : β),
      l.foldl (fun m e => if p e then m else f m e) init =
        (l.filter (fun e => ! decide (p e))).foldl f init := by
  intro l
  induction l with
  | nil => intro init; rfl
  | cons e rest ih =>
    intro init
    by_cases h : p e <;> simp [List.filter_cons, h, ih]

theorem groupByProjectAndDay_eq_groupFold (ed : String → String)
    (entries : List TogglTimeEntry) :
    groupByProjectAndDay ed entries =
      groupFold (entryKey ed) (entries.filter (fun e => ! decide (e.duration < 0))) [] := by
  rw [groupByProjectAndDay, groupFold]
  exact foldl_skip (fun e => e.duration < 0) _ entries []

theorem foldl_add_eq {M : Type} [AddCommMonoid M] {α : Type} (f : α → M) :
    ∀ (l : List α) (init : M), l.foldl (fun s x => s + f x) init = init + (l.map f).sum := by
  intro l
  induction l with
  | nil => intro init; simp
  | cons x rest ih =>
    intro init
    simp [ih, add_assoc]

/-! ## Decimal stringification and `parseInt` -/

theorem digitChar_isDigit {d : Nat} (h : d < 10) : (Nat.digitChar d).isDigit = true := by
  interval_cases d <;> decide

theorem digitChar_toNat {d : Nat} (h : d < 10) : (Nat.digitChar d).toNat = 48 + d := by
  interval_cases d <;> decide

theorem digitChar_ne_bar {d : Nat} (h : d < 10) : Nat.digitChar d ≠ '|' := by
  interval_cases d <;> decide

theorem toDecChars_zero (fuel : Nat) : toDecChars fuel 0 = [] := by
  cases fuel <;> simp [toDecChars]

theorem toDecChars_isDigit :
    ∀ (fuel n : Nat), ∀ c ∈ toDecChars fuel n, c.isDigit = true := by
  intro fuel
  induction fuel with
  | zero => intro n c hc; simp [toDecChars] at hc
  | succ f ih =>
    intro n c hc
    rw [toDecChars] at hc
    by_cases hn : n = 0
    · simp [hn] at hc
    · rw [if_neg hn] at hc
      rcases List.mem_append.mp hc with h | h
      · exact ih _ c h
      · rcases List.mem_singleton.mp h with rfl
        exact digitChar_isDigit (Nat.mod_lt n (by norm_num))

theorem parseGo_append (l1 l2 : List Char) (acc : Nat)
    (h : ∀ c ∈ l1, c.isDigit = true) :
    parseGo (l1 ++ l2) acc = parseGo l2 (parseGo l1 acc) := by
  induction l1 generalizing acc with
  | nil => rfl
  | cons c rest ih =>
    have hc : c.isDigit = true := h c (by simp)
    simp only [List.cons_append, parseGo, hc, if_pos]
    exact ih _ (fun c2 hc2 => h c2 (by simp [hc2]))

theorem parseGo_toDecChars :
    ∀ (fuel n acc : Nat), n ≤ fuel → n ≠ 0 →
      parseGo (toDecChars fuel n) acc = acc * 10 ^ (toDecChars fuel n).length + n := by
  intro fuel
  induction fuel with
  | zero => intro n acc hle hn; omega
  | succ f ih =>
    intro n acc hle hn
    rw [toDecChars, if_neg hn]
    have hd : (Nat.digitChar (n % 10)).isDigit = true :=
      digitChar_isDigit (Nat.mod_lt n (by norm_num))
    rw [parseGo_append _ _ _ (toDecChars_isDigit f (n / 10))]
    by_cases h10 : n / 10 = 0
    · have hlt : n < 10 := by omega
      rw [h10, toDecChars_zero]
      simp only [parseGo, hd, if_pos, digitChar_toNat (Nat.mod_lt n (by norm_num))]
      have : n % 10 = n := Nat.mod_eq_of_lt hlt
      simp [this]
      omega
    · have hfle : n / 10 ≤ f := by
        have := Nat.div_lt_self (Nat.pos_of_ne_zero hn) (by norm_num : 1 < 10)
        omega
      rw [ih (n / 10) acc hfle h10]
      simp only [parseGo, hd, if_pos, digitChar_toNat (Nat.mod_lt n (by norm_num))]
      rw [List.length_append, List.length_cons, List.length_nil, pow_succ]
      have hmod : 10 * (n / 10) + n % 10 = n := by omega
      have hassoc : acc * (10 ^ (toDecChars f (n / 10)).length * 10) =
          acc * 10 ^ (toDecChars f (n / 10)).length * 10 := by ring
      rw [hassoc]
      generalize acc * 10 ^ (toDecChars f (n / 10)).length = A
      omega

theorem parseIntNat_jsNatToString (n : Nat) : parseIntNat (jsNatToString n) = n := by
  by_cases hn : n = 0
  · subst hn; rfl
  · rw [jsNatToString, if_neg hn, parseIntNat]
    have : (String.mk (toDecChars n n)).data = toDecChars n n := rfl
    rw [this, parseGo_toDecChars n n 0 le_rfl hn]
    simp

theorem jsNatToString_injective {m n : Nat} (h : jsNatToString m = jsNatToString n) :
    m = n := by
  have := congrArg parseIntNat h
  rwa [parseIntNat_jsNatToString, parseIntNat_jsNatToString] at this

theorem bar_not_mem_jsNatToString (n : Nat) : '|' ∉ (jsNatToString n).data := by
  intro hmem
  by_cases hn : n = 0
  · subst hn; simp [jsNatToString] at hmem
  · rw [jsNatToString, if_neg hn] at hmem
    have : ('|' : Char).isDigit = true := toDecChars_isDigit n n '|' hmem
    exact absurd this (by decide)

theorem jsNatToString_ne_null (n : Nat) : jsNatToString n ≠ "null" := by
  intro h
  by_cases hn : n = 0
  · subst hn; simp [jsNatToString] at h
  · rw [jsNatToString, if_neg hn] at h
    have hdata : toDecChars n n = "null".data := congrArg String.data h
    have hmem : 'n' ∈ toDecChars n n := by rw [hdata]; decide
    have : ('n' : Char).isDigit = true := toDecChars_isDigit n n 'n' hmem
    exact absurd this (by decide)

/-! ## Splitting keys back apart -/

theorem splitChar_of_not_mem {sep : Char} {l : List Char} (h : sep ∉ l) :
    splitChar sep l = [l] := by
  induction l with
  | nil => rfl
  | cons c rest ih =>
    have hc : ¬ c = sep := fun he => h (he ▸ List.mem_cons_self c rest)
    have hr : sep ∉ rest := fun hm => h (List.mem_cons_of_mem c hm)
    rw [splitChar, if_neg hc, ih hr]

theorem splitChar_append {sep : Char} {a : List Char} (b : List Char) (h : sep ∉ a) :
    splitChar sep (a ++ sep :: b) = a :: splitChar sep b := by
  induction a with
  | nil => simp [splitChar]
  | cons c rest ih =>
    have hc : ¬ c = sep := fun he => h (he ▸ List.mem_cons_self c rest)
    have hr : sep ∉ rest := fun hm => h (List.mem_cons_of_mem c hm)
    rw [List.cons_append, splitChar, if_neg hc, ih hr]

/-- Splitting `idStr ++ "|" ++ rest` at `'|'` when `idStr` is bar-free:
the first two segments are `idStr` and the first bar-free prefix of `rest`. -/
theorem jsSplit_key (idStr rest : String) (h : '|' ∉ idStr.data) :
    jsSplit '|' (idStr ++ "|" ++ rest) = idStr :: jsSplit '|' rest := by
  have hdata : (idStr ++ "|" ++ rest).data = idStr.data ++ '|' :: rest.data := by
    simp
  rw [jsSplit, hdata, splitChar_append rest.data h]
  rfl

theorem jsSplit_ne_nil (sep : Char) (s : String) : jsSplit sep s ≠ [] := by
  rw [jsSplit]
  cases hs : s.data with
  | nil => simp [splitChar]
  | cons c rest =>
    rw [splitChar]
    by_cases hc : c = sep
    · simp [hc]
    · rw [if_neg hc]
      cases hr : splitChar sep rest <;> simp

theorem jsSplit_head_of_not_mem {sep : Char} {s : String} (h : sep ∉ s.data) :
    jsSplit sep s = [s] := by
  rw [jsSplit, splitChar_of_not_mem h]
  rfl

/-! ## The code-point order used by the embedded sorts -/

theorem charListLtb_irrefl : ∀ l : List Char, charListLtb l l = false := by
  intro l
  induction l with
  | nil => rfl
  | cons c rest ih => simp [charListLtb, ih]

theorem charListLtb_trans :
    ∀ {a b c : List Char}, charListLtb a b = true → charListLtb b c = true →
      charListLtb a c = true := by
  intro a
  induction a with
  | nil =>
    intro b c hab hbc
    cases b with
    | nil => exact absurd hab (by simp [charListLtb])
    | cons y ys =>
      cases c with
      | nil => exact absurd hbc (by simp [charListLtb])
      | cons z zs => simp [charListLtb]
  | cons x xs ih =>
    intro b c hab hbc
    cases b with
    | nil => exact absurd hab (by simp [charListLtb])
    | cons y ys =>
      cases c with
      | nil => exact absurd hbc (by simp [charListLtb])
      | cons z zs =>
        rw [charListLtb] at hab hbc ⊢
        by_cases hxy : x < y
        · by_cases hyz : y < z
          · rw [if_pos (lt_trans hxy hyz)]
          · rw [if_neg hyz] at hbc
            by_cases hzy : z < y
            · rw [if_pos hzy] at hbc; cases hbc
            · have hyez : y = z := le_antisymm (not_lt.mp hzy) (not_lt.mp hyz)
              rw [if_pos (hyez ▸ hxy)]
        · rw [if_neg hxy] at hab
          by_cases hyx : y < x
          · rw [if_pos hyx] at hab; cases hab
          · rw [if_neg hyx] at hab
            have hxey : x = y := le_antisymm (not_lt.mp hyx) (not_lt.mp hxy)
            subst hxey
            by_cases hxz : x < z
            · rw [if_pos hxz]
            · rw [if_neg hxz] at hbc ⊢
              by_cases hzx : z < x
              · rw [if_pos hzx] at hbc; cases hbc
              · rw [if_neg hzx] at hbc ⊢
                exact ih hab hbc

theorem charListLtb_connex :
    ∀ {a b : List Char}, charListLtb a b = false → charListLtb b a = false → a = b := by
  intro a
  induction a with
  | nil =>
    intro b hab _
    cases b with
    | nil => rfl
    | cons y ys => exact absurd hab (by simp [charListLtb])
  | cons x xs ih =>
    intro b hab hba
    cases b with
    | nil => exact absurd hba (by simp [charListLtb])
    | cons y ys =>
      rw [charListLtb] at hab hba
      by_cases hxy : x < y
      · rw [if_pos hxy] at hab; cases hab
      · by_cases hyx : y < x
        · rw [if_pos hyx] at hba; cases hba
        · have hxey : x = y := le_antisymm (not_lt.mp hyx) (not_lt.mp hxy)
          subst hxey
          rw [if_neg hxy, if_neg hxy] at hab hba
          rw [ih hab hba]

theorem charListLtb_asymm {a b : List Char} (h : charListLtb a b = true) :
    charListLtb b a = false := by
  by_contra hb
  have hb2 : charListLtb b a = true := by
    cases hc : charListLtb b a
    · exact absurd hc hb
    · rfl
  have := charListLtb_trans h hb2
  rw [charListLtb_irrefl] at this
  cases this

theorem localeLe_total (a b : String) : localeLe a b ∨ localeLe b a := by
  rw [localeLe, localeLe, strLeb, strLeb]
  cases h : charListLtb b.data a.data with
  | false => left; rfl
  | true =>
    right
    rw [charListLtb_asymm h]
    rfl

theorem localeLe_trans {a b c : String} (hab : localeLe a b) (hbc : localeLe b c) :
    localeLe a c := by
  rw [localeLe, strLeb] at hab hbc ⊢
  have hba : charListLtb b.data a.data = false := by
    cases hx : charListLtb b.data a.data
    · rfl
    · rw [hx] at hab; cases hab
  have hcb : charListLtb c.data b.data = false := by
    cases hx : charListLtb c.data b.data
    · rfl
    · rw [hx] at hbc; cases hbc
  have hca : charListLtb c.data a.data = false := by
    by_contra h
    have hca2 : charListLtb c.data a.data = true := by
      cases hx : charListLtb c.data a.data
      · exact absurd hx h
      · rfl
    by_cases hab2 : charListLtb a.data b.data = true
    · have := charListLtb_trans hca2 hab2
      rw [hcb] at this
      cases this
    · have hab3 : charListLtb a.data b.data = false := by
        cases hx : charListLtb a.data b.data
        · rfl
        · exact absurd hx hab2
      have heq : a.data = b.data := charListLtb_connex hab3 hba
      rw [heq] at hca2
      rw [hcb] at hca2
      cases hca2
  rw [hca]
  rfl

/-- Antisymmetry of the modelled string order. -/
theorem localeLe_antisymm {a b : String} (hab : localeLe a b) (hba : localeLe b a) :
    a = b := by
  rw [localeLe, strLeb] at hab hba
  have h1 : charListLtb b.data a.data = false := by
    cases hx : charListLtb b.data a.data
    · rfl
    · rw [hx] at hab; cases hab
  have h2 : charListLtb a.data b.data = false := by
    cases hx : charListLtb a.data b.data
    · rfl
    · rw [hx] at hba; cases hba
  exact string_eq_of_data (charListLtb_connex h2 h1)

instance : IsTotal ProjectDaySummary (fun a b => localeLe a.projectName b.projectName) :=
  ⟨fun a b => localeLe_total a.projectName b.projectName⟩

instance : IsTrans ProjectDaySummary (fun a b => localeLe a.projectName b.projectName) :=
  ⟨fun _ _ _ hab hbc => localeLe_trans hab hbc⟩

instance : IsTotal ProjectDaySummary (fun a b => localeLe a.date b.date) :=
  ⟨fun a b => localeLe_total a.date b.date⟩

instance : IsTrans ProjectDaySummary (fun a b => localeLe a.date b.date) :=
  ⟨fun _ _ _ hab hbc => localeLe_trans hab hbc⟩

instance : IsTotal ProjectSummary (fun a b => localeLe a.projectName b.projectName) :=
  ⟨fun a b => localeLe_total a.projectName b.projectName⟩

instance : IsTrans ProjectSummary (fun a b => localeLe a.projectName b.projectName) :=
  ⟨fun _ _ _ hab hbc => localeLe_trans hab hbc⟩

/-! ## Deduplication lemmas -/

theorem mem_jsDedupGo (x : String) :
    ∀ (l seen : List String), x ∈ jsDedupGo seen l ↔ x ∈ l ∧ x ∉ seen := by
  intro l
  induction l with
  | nil => intro seen; simp [jsDedupGo]
  | cons d rest ih =>
    intro seen
    by_cases hd : d ∈ seen
    · rw [jsDedupGo, if_pos hd, ih]
      constructor
      · rintro ⟨hr, hns⟩
        refine ⟨List.mem_cons_of_mem d hr, fun hs => hns (List.mem_append.mpr (Or.inl hs))⟩
      · rintro ⟨hr, hns⟩
        rcases List.mem_cons.mp hr with rfl | hr2
        · exact absurd hd hns
        · refine ⟨hr2, fun hs => ?_⟩
          rcases List.mem_append.mp hs with h1 | h1
          · exact hns h1
          · rcases List.mem_singleton.mp h1 with rfl
            exact hns hd
    · rw [jsDedupGo, if_neg hd]
      constructor
      · intro hmem
        rcases List.mem_cons.mp hmem with rfl | hmem2
        · exact ⟨List.mem_cons_self x rest, hd⟩
        · rcases (ih _).mp hmem2 with ⟨hr, hns⟩
          exact ⟨List.mem_cons_of_mem d hr,
            fun hs => hns (List.mem_append.mpr (Or.inl hs))⟩
      · rintro ⟨hr, hns⟩
        rcases List.mem_cons.mp hr with rfl | hr2
        · exact List.mem_cons_self x _
        · by_cases hxd : x = d
          · subst hxd; exact List.mem_cons_self x _
          · refine List.mem_cons_of_mem d ((ih _).mpr ⟨hr2, fun hs => ?_⟩)
            rcases List.mem_append.mp hs with h1 | h1
            · exact hns h1
            · exact hxd (List.mem_singleton.mp h1)

theorem nodup_jsDedupGo : ∀ (l seen : List String), (jsDedupGo seen l).Nodup := by
  intro l
  induction l with
  | nil => intro seen; simp [jsDedupGo]
  | cons d rest ih =>
    intro seen
    by_cases hd : d ∈ seen
    · rw [jsDedupGo, if_pos hd]
      exact ih _
    · rw [jsDedupGo, if_neg hd]
      refine List.nodup_cons.mpr ⟨?_, ih _⟩
      intro hmem
      rcases (mem_jsDedupGo d rest _).mp hmem with ⟨_, hns⟩
      exact hns (by simp)

theorem sublist_jsDedupGo : ∀ (l seen : List String), List.Sublist (jsDedupGo seen l) l := by
  intro l
  induction l with
  | nil => intro seen; simp [jsDedupGo]
  | cons d rest ih =>
    intro seen
    by_cases hd : d ∈ seen
    · rw [jsDedupGo, if_pos hd]
      exact (ih _).cons d
    · rw [jsDedupGo, if_neg hd]
      exact (ih _).cons₂ d

theorem mem_jsDedup (x : String) (l : List String) : x ∈ jsDedup l ↔ x ∈ l := by
  rw [jsDedup, mem_jsDedupGo]
  simp

/-! ## Bucket sums -/

section BucketSums

variable {κ α : Type} [DecidableEq κ] {M : Type} [AddCommMonoid M]

theorem sum_buckets_upsert (f : α → M) (m : List (κ × List α)) (k : κ) (v : α) :
    ((upsert m k v).map (fun kv => (kv.2.map f).sum)).sum =
      (m.map (fun kv => (kv.2.map f).sum)).sum + f v := by
  induction m with
  | nil => simp [upsert]
  | cons p rest ih =>
    obtain ⟨k1, vs⟩ := p
    by_cases h : k1 = k
    · subst h
      simp [upsert]
      abel
    · simp only [upsert, if_neg h, List.map_cons, List.sum_cons, ih]
      abel

theorem sum_buckets_groupFold (keyOf : α → κ) (f : α → M) :
    ∀ (l : List α) (init : List (κ × List α)),
      ((groupFold keyOf l init).map (fun kv => (kv.2.map f).sum)).sum =
        (init.map (fun kv => (kv.2.map f).sum)).sum + (l.map f).sum := by
  intro l
  induction l with
  | nil => intro init; simp [groupFold]
  | cons e rest ih =>
    intro init
    rw [groupFold_cons, ih, sum_buckets_upsert]
    simp only [List.map_cons, List.sum_cons]
    abel

end BucketSums

/-! ## Rounding bounds -/

theorem jsRound_of_bounds (q : ℚ) (z : ℤ) (h1 : (z : ℚ) ≤ q + 1 / 2)
    (h2 : q + 1 / 2 < z + 1) : jsRound q = z := by
  rw [jsRound]
  exact Int.floor_eq_iff.mpr ⟨h1, h2⟩

theorem abs_jsRound_sub_le (q : ℚ) : |(jsRound q : ℚ) - q| ≤ 1 / 2 := by
  rw [jsRound]
  have h1 : (⌊q + 1 / 2⌋ : ℚ) ≤ q + 1 / 2 := Int.floor_le _
  have h2 : q + 1 / 2 - 1 < (⌊q + 1 / 2⌋ : ℚ) := Int.sub_one_lt_floor _
  rw [abs_le]
  constructor <;> linarith

theorem abs_round2_sub_le (q : ℚ) : |round2 q - q| ≤ 1 / 200 := by
  have h := abs_jsRound_sub_le (q * 100)
  rw [round2]
  have heq : (jsRound (q * 100) : ℚ) / 100 - q = ((jsRound (q * 100) : ℚ) - q * 100) / 100 := by
    ring
  rw [heq, abs_div]
  rw [abs_of_pos (by norm_num : (0 : ℚ) < 100)]
  linarith

theorem abs_sum_round2_sub_le (l : List ℚ) :
    |(l.map round2).sum - l.sum| ≤ (l.length : ℚ) / 200 := by
  induction l with
  | nil => simp
  | cons q rest ih =>
    have hq := abs_round2_sub_le q
    have htri : |round2 q + (rest.map round2).sum - (q + rest.sum)| ≤
        |round2 q - q| + |(rest.map round2).sum - rest.sum| := by
      have : round2 q + (rest.map round2).sum - (q + rest.sum) =
          (round2 q - q) + ((rest.map round2).sum - rest.sum) := by ring
      rw [this]
      exact abs_add _ _
    simp only [List.map_cons, List.sum_cons, List.length_cons]
    have hlen : ((rest.length + 1 : ℕ) : ℚ) = (rest.length : ℚ) + 1 := by push_cast; ring
    rw [hlen]
    linarith [htri, hq, ih]

/-! ## Claim theorems -/

/-- C9: `organizeByProject` never reads its `allDates` argument: for every
flat summary list and dayName lookup and any two date lists, the outputs are
identical (noninterference of the date-list input). -/
theorem C9_organizeByProject_ignores_allDates (summaries : List ProjectDaySummary)
    (d1 d2 : List String) (dayNames : List (String × String)) :
    organizeByProject summaries d1 dayNames = organizeByProject summaries d2 dayNames :=
  rfl

/-- The `|| ''` fallback yields `""` exactly when the lookup is absent or
maps to the empty string. -/
theorem jsOrEmpty_eq_empty {o : Option String} (h : o = none ∨ o = some "") :
    jsOrEmpty o = "" := by
  rcases h with rfl | rfl <;> simp [jsOrEmpty]

/-- C10: a date absent from the `dayNames` lookup (or mapped to `""`) gets
the empty `dayName` in both `organizeByDay` and `organizeByProject`; both
functions are total, so they never fail on such lookups. -/
theorem C10_missing_dayName_empty (summaries : List ProjectDaySummary)
    (allDates : List String) (dayNames : List (String × String)) (d : String)
    (h : assocFind dayNames d = none ∨ assocFind dayNames d = some "") :
    (∀ ds ∈ organizeByDay summaries allDates dayNames, ds.date = d → ds.dayName = "") ∧
    (∀ ps ∈ organizeByProject summaries allDates dayNames,
      ∀ de ∈ ps.days, de.date = d → de.dayName = "") := by
  constructor
  · intro ds hds hdate
    rw [organizeByDay] at hds
    rcases List.mem_map.mp hds with ⟨date, _, rfl⟩
    simp only at hdate
    subst hdate
    exact jsOrEmpty_eq_empty h
  · intro ps hps de hde hdate
    rw [organizeByProject] at hps
    have hps2 := (List.perm_insertionSort
      (fun a b : ProjectSummary => localeLe a.projectName b.projectName) _).subset hps
    rcases List.mem_map.mp hps2 with ⟨kv, _, rfl⟩
    simp only [buildProjectSummary] at hde
    rcases List.mem_map.mp hde with ⟨pd, _, rfl⟩
    simp only at hdate
    subst hdate
    exact jsOrEmpty_eq_empty h

theorem C10_missing_dayName_empty_witness :
    (∀ ds ∈ organizeByDay [] ["2026-01-12"] [("2026-01-05", "Montag")],
      ds.date = "2026-01-12" → ds.dayName = "") ∧
    (∀ ps ∈ organizeByProject [] ["2026-01-12"] [("2026-01-05", "Montag")],
      ∀ de ∈ ps.days, de.date = "2026-01-12" → de.dayName = "") :=
  C10_missing_dayName_empty [] ["2026-01-12"] [("2026-01-05", "Montag")] "2026-01-12"
    (Or.inl (by decide))

/-- C1: an entry with negative duration (running timer) belongs to no group
of `groupByProjectAndDay`, and removing it from the input leaves
`aggregateTimeEntries` unchanged, so it contributes to no total and no
description. -/
theorem C1_negative_duration_excluded (ed : String → String)
    (projectsMap : List (Nat × TogglProject)) (l1 l2 : List TogglTimeEntry)
    (e : TogglTimeEntry) (h : e.duration < 0) :
    aggregateTimeEntries ed (l1 ++ e :: l2) projectsMap =
      aggregateTimeEntries ed (l1 ++ l2) projectsMap ∧
    (∀ kv ∈ groupByProjectAndDay ed (l1 ++ e :: l2), e ∉ kv.2) := by
  constructor
  · have hg : groupByProjectAndDay ed (l1 ++ e :: l2) =
        groupByProjectAndDay ed (l1 ++ l2) := by
      rw [groupByProjectAndDay, groupByProjectAndDay, List.foldl_append,
        List.foldl_append, List.foldl_cons, if_pos h]
    rw [aggregateTimeEntries, aggregateTimeEntries, hg]
  · intro kv hkv hmem
    rw [groupByProjectAndDay_eq_groupFold] at hkv
    obtain ⟨k, vs⟩ := kv
    have hb := (bucket_eq_filter _ _ hkv).1
    simp only at hmem
    rw [hb] at hmem
    have h1 := (List.mem_filter.mp hmem).1
    have h2 := (List.mem_filter.mp h1).2
    simp only [Bool.not_eq_true', decide_eq_false_iff_not] at h2
    exact h2 h

theorem C1_negative_duration_excluded_witness :
    aggregateTimeEntries (fun s => s)
        ([⟨some 1, "d1", 3600, some "A"⟩] ++ ⟨some 1, "d1", -5, some "R"⟩ ::
          [⟨some 2, "d1", 60, none⟩]) [(1, ⟨1, "P1"⟩)] =
      aggregateTimeEntries (fun s => s)
        ([⟨some 1, "d1", 3600, some "A"⟩] ++ [⟨some 2, "d1", 60, none⟩])
        [(1, ⟨1, "P1"⟩)] ∧
    (∀ kv ∈ groupByProjectAndDay (fun s => s)
        ([⟨some 1, "d1", 3600, some "A"⟩] ++ ⟨some 1, "d1", -5, some "R"⟩ ::
          [⟨some 2, "d1", 60, none⟩]),
      (⟨some 1, "d1", -5, some "R"⟩ : TogglTimeEntry) ∉ kv.2) :=
  C1_negative_duration_excluded (fun s => s) [(1, ⟨1, "P1"⟩)]
    [⟨some 1, "d1", 3600, some "A"⟩] [⟨some 2, "d1", 60, none⟩]
    ⟨some 1, "d1", -5, some "R"⟩ (by decide)

/-- The spec's rounding rule: round half away from zero, here applied to a
number of centi-units.  Modelled from the spec for comparison with the
code's `Math.round`-based rounding. -/
def roundHalfAwayFromZero (q : ℚ) : ℤ :=
  if 0 ≤ q then ⌊q + 1 / 2⌋ else -⌊-q + 1 / 2⌋

/-- C2: for entries with non-negative durations, `calculateTotalHours` is
exactly the sum of the durations divided by 3600, rounded once at the end to
2 decimal places with round-half-away-from-zero (no per-entry value is
rounded). -/
theorem C2_totalHours_rounding (entries : List TogglTimeEntry)
    (h : ∀ e ∈ entries, 0 ≤ e.duration) :
    calculateTotalHours entries =
      (roundHalfAwayFromZero
        ((((entries.map (fun e => e.duration)).sum : ℤ) : ℚ) / 3600 * 100) : ℚ) / 100 := by
  have hsum : (0 : ℤ) ≤ (entries.map (fun e => e.duration)).sum := by
    apply List.sum_nonneg
    intro x hx
    rcases List.mem_map.mp hx with ⟨e, he, rfl⟩
    exact h e he
  have hfold : entries.foldl (fun sum entry => sum + entry.duration) 0 =
      (entries.map (fun e => e.duration)).sum := by
    rw [foldl_add_eq (fun e => e.duration) entries 0, zero_add]
  rw [calculateTotalHours]
  simp only [hfold]
  rw [round2, jsRound, roundHalfAwayFromZero,
    if_pos (by positivity :
      (0 : ℚ) ≤ (((entries.map (fun e => e.duration)).sum : ℤ) : ℚ) / 3600 * 100)]

theorem C2_totalHours_rounding_witness :
    calculateTotalHours [⟨some 1, "d1", 18, none⟩] =
      (roundHalfAwayFromZero
        (((([⟨some 1, "d1", 18, none⟩].map
          (fun e => TogglTimeEntry.duration e)).sum : ℤ) : ℚ) / 3600 * 100) : ℚ) / 100 :=
  C2_totalHours_rounding [⟨some 1, "d1", 18, none⟩] (by decide)

/-- The filtered description list of `processDescriptions` before
deduplication (drop `null` and trim-empty descriptions). -/
def descriptionPool (entries : List TogglTimeEntry) : List String :=
  (entries.map (fun e => e.description)).filterMap
    (fun desc =>
      match desc with
      | none => none
      | some s => if jsTrim s = "" then none else some s)

theorem processDescriptions_eq_pool (entries : List TogglTimeEntry) :
    processDescriptions entries =
      String.intercalate " / \n" (jsDedup (descriptionPool entries)) := rfl

/-- Deduplication as claim C3 words it: by exact string equality AFTER
trimming, keeping the first occurrence.  Modelled from the claim, for
comparison with the code's exact-equality deduplication. -/
def dedupPostTrim : List String → List String → List String
  | _, [] => []
  | seen, d :: rest =>
    if jsTrim d ∈ seen then dedupPostTrim seen rest
    else d :: dedupPostTrim (jsTrim d :: seen) rest

/-- The descriptions aggregation as claim C3 states it (post-trim
deduplication); modelled from the claim, for comparison. -/
def claimDescriptions (entries : List TogglTimeEntry) : String :=
  String.intercalate " / \n" (dedupPostTrim [] (descriptionPool entries))

/-- C3 counterexample: two descriptions `"A"` and `"A "` are equal after
trimming, so the claim predicts a single occurrence, but the code
deduplicates by exact (untrimmed) equality and keeps both. -/
theorem C3_descriptions_dedup_counterexample :
    processDescriptions
        [⟨some 1, "d1", 60, some "A"⟩, ⟨some 1, "d1", 60, some "A "⟩] = "A / \nA " ∧
    claimDescriptions
        [⟨some 1, "d1", 60, some "A"⟩, ⟨some 1, "d1", 60, some "A "⟩] = "A" ∧
    processDescriptions
        [⟨some 1, "d1", 60, some "A"⟩, ⟨some 1, "d1", 60, some "A "⟩] ≠
      claimDescriptions
        [⟨some 1, "d1", 60, some "A"⟩, ⟨some 1, "d1", 60, some "A "⟩] := by
  refine ⟨by decide, by decide, by decide⟩

/-- C3 (amended): the aggregated descriptions string maps entries to their
description, discards descriptions absent or empty after trimming, then
deduplicates the survivors by EXACT (untrimmed) string equality keeping the
first occurrence, and joins with `" / \n"`: the kept list has no duplicates,
is a subsequence of the filtered list, and keeps exactly its members.  Two
descriptions that differ only in surrounding whitespace are NOT merged. -/
theorem C3_descriptions_dedup_amended (entries : List TogglTimeEntry) :
    processDescriptions entries =
      String.intercalate " / \n" (jsDedup (descriptionPool entries)) ∧
    (jsDedup (descriptionPool entries)).Nodup ∧
    List.Sublist (jsDedup (descriptionPool entries)) (descriptionPool entries) ∧
    (∀ x, x ∈ jsDedup (descriptionPool entries) ↔ x ∈ descriptionPool entries) :=
  ⟨rfl, nodup_jsDedupGo _ _, sublist_jsDedupGo _ _,
    fun x => mem_jsDedup x (descriptionPool entries)⟩

/-- C4: `organizeByDay` emits exactly one `DaySummary` per date of the date
list, in the date list's order (so the output length equals the date list's
length); position `i` holds the date-list's `i`-th date, its projects are
exactly the input summaries of that date (as a permutation) sorted by
`projectName` ascending, and a date with no summaries keeps an empty
projects list instead of being omitted. -/
theorem C4_organizeByDay_structure (summaries : List ProjectDaySummary)
    (allDates : List String) (dayNames : List (String × String)) :
    (organizeByDay summaries allDates dayNames).length = allDates.length ∧
    (∀ i, i < allDates.length →
      ((organizeByDay summaries allDates dayNames).getD i ⟨"", "", []⟩).date =
        allDates.getD i "" ∧
      List.Perm ((organizeByDay summaries allDates dayNames).getD i ⟨"", "", []⟩).projects
        (summaries.filter (fun s => s.date = allDates.getD i "")) ∧
      List.Sorted (fun a b => localeLe a.projectName b.projectName)
        ((organizeByDay summaries allDates dayNames).getD i ⟨"", "", []⟩).projects ∧
      (summaries.filter (fun s => s.date = allDates.getD i "") = [] →
        ((organizeByDay summaries allDates dayNames).getD i ⟨"", "", []⟩).projects = [])) := by
  constructor
  · rw [organizeByDay, List.length_map]
  · intro i hi
    have hdate : allDates.getD i "" = allDates[i] := by
      rw [List.getD_eq_getElem?_getD, List.getElem?_eq_getElem hi]
      rfl
    have hget : (organizeByDay summaries allDates dayNames).getD i ⟨"", "", []⟩ =
        { date := allDates[i]
          dayName := jsOrEmpty (assocFind dayNames allDates[i])
          projects :=
            List.insertionSort (fun a b => localeLe a.projectName b.projectName)
              (summaries.filter (fun s => s.date = allDates[i])) } := by
      rw [organizeByDay, List.getD_eq_getElem?_getD, List.getElem?_map,
        List.getElem?_eq_getElem hi]
      rfl
    rw [hget, hdate]
    refine ⟨rfl, List.perm_insertionSort _ _, List.sorted_insertionSort _ _, ?_⟩
    intro hempty
    simp only [hempty]
    rfl

theorem C4_organizeByDay_structure_witness :
    ((organizeByDay [⟨some 1, "P1", "2026-01-13", 1, "A"⟩] ["2026-01-12", "2026-01-13"]
        []).getD 0 ⟨"", "", []⟩).date = ["2026-01-12", "2026-01-13"].getD 0 "" ∧
    List.Perm ((organizeByDay [⟨some 1, "P1", "2026-01-13", 1, "A"⟩]
        ["2026-01-12", "2026-01-13"] []).getD 0 ⟨"", "", []⟩).projects
      (([⟨some 1, "P1", "2026-01-13", 1, "A"⟩] : List ProjectDaySummary).filter
        (fun s => s.date = ["2026-01-12", "2026-01-13"].getD 0 "")) ∧
    List.Sorted (fun a b => localeLe a.projectName b.projectName)
      ((organizeByDay [⟨some 1, "P1", "2026-01-13", 1, "A"⟩]
        ["2026-01-12", "2026-01-13"] []).getD 0 ⟨"", "", []⟩).projects ∧
    (([⟨some 1, "P1", "2026-01-13", 1, "A"⟩] : List ProjectDaySummary).filter
        (fun s => s.date = ["2026-01-12", "2026-01-13"].getD 0 "") = [] →
      ((organizeByDay [⟨some 1, "P1", "2026-01-13", 1, "A"⟩]
        ["2026-01-12", "2026-01-13"] []).getD 0 ⟨"", "", []⟩).projects = []) :=
  (C4_organizeByDay_structure [⟨some 1, "P1", "2026-01-13", 1, "A"⟩]
    ["2026-01-12", "2026-01-13"] []).2 0 (by decide)

theorem calculateTotalHours_eq (l : List TogglTimeEntry) :
    calculateTotalHours l =
      round2 ((((l.map (fun e => e.duration)).sum : ℤ) : ℚ) / 3600) := by
  rw [calculateTotalHours]
  simp only [foldl_add_eq (fun e => e.duration) l 0, zero_add]

theorem sum_cast_div (l : List ℤ) (c : ℚ) :
    (l.map (fun (z : ℤ) => (z : ℚ) / c)).sum = ((l.sum : ℤ) : ℚ) / c := by
  induction l with
  | nil => simp
  | cons z rest ih =>
    simp only [List.map_cons, List.sum_cons, List.sum_cons, ih]
    push_cast
    ring

theorem filter_nonneg_eq (entries : List TogglTimeEntry) :
    entries.filter (fun e => ! decide (e.duration < 0)) =
      entries.filter (fun e => 0 ≤ e.duration) := by
  apply List.filter_congr
  intro e _
  by_cases hd : e.duration < 0
  · simp [hd, Int.not_le.mpr hd]
  · simp [hd, Int.not_lt.mp hd]

theorem aggregate_map_totalHours (ed : String → String) (entries : List TogglTimeEntry)
    (projectsMap : List (Nat × TogglProject)) :
    (aggregateTimeEntries ed entries projectsMap).map (fun s => s.totalHours) =
      (groupByProjectAndDay ed entries).map (fun kv => calculateTotalHours kv.2) := by
  simp only [aggregateTimeEntries, List.map_map]
  rfl

/-- C7 (amended): the sum of all `totalHours` matches the rounded grand
total only up to half a rounding unit (0.005) per group plus half a unit,
not up to 0.01 independently of the number of groups. -/
theorem C7_sum_totalHours_bound (ed : String → String)
    (projectsMap : List (Nat × TogglProject)) (entries : List TogglTimeEntry) :
    |((aggregateTimeEntries ed entries projectsMap).map (fun s => s.totalHours)).sum -
        round2 (((((entries.filter (fun e => 0 ≤ e.duration)).map
          (fun e => e.duration)).sum : ℤ) : ℚ) / 3600)| ≤
      (((aggregateTimeEntries ed entries projectsMap).length : ℚ) + 1) / 200 := by
  have hmap := aggregate_map_totalHours ed entries projectsMap
  have hlen : (aggregateTimeEntries ed entries projectsMap).length =
      (groupByProjectAndDay ed entries).length := by
    simp [aggregateTimeEntries]
  have hpoint : (groupByProjectAndDay ed entries).map (fun kv => calculateTotalHours kv.2) =
      ((groupByProjectAndDay ed entries).map
        (fun kv => (kv.2.map (fun e => e.duration)).sum)).map
        (fun (z : ℤ) => round2 ((z : ℚ) / 3600)) := by
    rw [List.map_map]
    apply List.map_congr_left
    intro kv _
    rw [calculateTotalHours_eq]
    rfl
  set zs := (groupByProjectAndDay ed entries).map
    (fun kv => (kv.2.map (fun e => e.duration)).sum) with hzs
  have hzsum : zs.sum = ((entries.filter (fun e => 0 ≤ e.duration)).map
      (fun e => e.duration)).sum := by
    rw [hzs, groupByProjectAndDay_eq_groupFold,
      sum_buckets_groupFold (entryKey ed) (fun e => e.duration), filter_nonneg_eq]
    simp
  set xs := zs.map (fun (z : ℤ) => (z : ℚ) / 3600) with hxs
  have hxsum : xs.sum = ((zs.sum : ℤ) : ℚ) / 3600 := sum_cast_div zs 3600
  have hcompose : zs.map (fun (z : ℤ) => round2 ((z : ℚ) / 3600)) = xs.map round2 := by
    rw [hxs]
    conv_rhs => rw [List.map_map]
    rfl
  rw [hmap, hpoint, hcompose]
  have h1 : |(xs.map round2).sum - xs.sum| ≤ (xs.length : ℚ) / 200 :=
    abs_sum_round2_sub_le xs
  have h2 : |round2 xs.sum - xs.sum| ≤ 1 / 200 := abs_round2_sub_le xs.sum
  have htarget : round2 (((((entries.filter (fun e => 0 ≤ e.duration)).map
      (fun e => e.duration)).sum : ℤ) : ℚ) / 3600) = round2 xs.sum := by
    rw [hxsum, hzsum]
  rw [htarget]
  have hxlen : (xs.length : ℚ) = ((aggregateTimeEntries ed entries projectsMap).length : ℚ) := by
    rw [hxs, hzs, List.length_map, List.length_map, hlen]
  have htri : |(xs.map round2).sum - round2 xs.sum| ≤
      |(xs.map round2).sum - xs.sum| + |round2 xs.sum - xs.sum| := by
    have heq : (xs.map round2).sum - round2 xs.sum =
        ((xs.map round2).sum - xs.sum) - (round2 xs.sum - xs.sum) := by ring
    rw [heq]
    exact abs_sub _ _
  calc |(xs.map round2).sum - round2 xs.sum| ≤
      |(xs.map round2).sum - xs.sum| + |round2 xs.sum - xs.sum| := htri
    _ ≤ (xs.length : ℚ) / 200 + 1 / 200 := add_le_add h1 h2
    _ = ((xs.length : ℚ) + 1) / 200 := by ring
    _ = (((aggregateTimeEntries ed entries projectsMap).length : ℚ) + 1) / 200 := by
        rw [hxlen]

/-- C7 counterexample: five one-entry groups of 18 seconds each round to
`0.01` hours apiece (sum `0.05`), while the rounded grand total of 90
seconds is `0.03`; the difference `0.02` exceeds the claimed tolerance of
one rounding unit (`0.01`). -/
theorem C7_sum_totalHours_counterexample :
    ¬ |((aggregateTimeEntries (fun _ => "2026-01-12")
          [⟨some 1, "t", 18, none⟩, ⟨some 2, "t", 18, none⟩, ⟨some 3, "t", 18, none⟩,
           ⟨some 4, "t", 18, none⟩, ⟨some 5, "t", 18, none⟩] []).map
        (fun s => s.totalHours)).sum -
        round2 (((((([⟨some 1, "t", 18, none⟩, ⟨some 2, "t", 18, none⟩,
            ⟨some 3, "t", 18, none⟩, ⟨some 4, "t", 18, none⟩,
            ⟨some 5, "t", 18, none⟩] : List TogglTimeEntry).filter
          (fun e => 0 ≤ e.duration)).map (fun e => e.duration)).sum : ℤ) : ℚ) / 3600)| ≤
      1 / 100 := by
  have hmap : ((aggregateTimeEntries (fun _ => "2026-01-12")
      [⟨some 1, "t", 18, none⟩, ⟨some 2, "t", 18, none⟩, ⟨some 3, "t", 18, none⟩,
       ⟨some 4, "t", 18, none⟩, ⟨some 5, "t", 18, none⟩] []).map
      (fun s => s.totalHours)) =
      [calculateTotalHours [⟨some 1, "t", 18, none⟩],
       calculateTotalHours [⟨some 2, "t", 18, none⟩],
       calculateTotalHours [⟨some 3, "t", 18, none⟩],
       calculateTotalHours [⟨some 4, "t", 18, none⟩],
       calculateTotalHours [⟨some 5, "t", 18, none⟩]] := rfl
  have h1 : ∀ pid : Nat, calculateTotalHours [⟨some pid, "t", 18, none⟩] = 1 / 100 := by
    intro pid
    rw [calculateTotalHours_eq]
    have harg : ((((([⟨some pid, "t", 18, none⟩] : List TogglTimeEntry).map
        (fun e => e.duration)).sum : ℤ) : ℚ)) / 3600 = (18 : ℚ) / 3600 := by
      norm_num
    rw [harg, round2, show jsRound ((18 : ℚ) / 3600 * 100) = 1 from
      jsRound_of_bounds _ 1 (by norm_num) (by norm_num)]
    norm_num
  have hfil : (((([⟨some 1, "t", 18, none⟩, ⟨some 2, "t", 18, none⟩,
      ⟨some 3, "t", 18, none⟩, ⟨some 4, "t", 18, none⟩,
      ⟨some 5, "t", 18, none⟩] : List TogglTimeEntry).filter
      (fun e => 0 ≤ e.duration)).map (fun e => e.duration)).sum : ℤ) = 90 := by decide
  have hround : round2 (((90 : ℤ) : ℚ) / 3600) = 3 / 100 := by
    have harg : (((90 : ℤ) : ℚ)) / 3600 = (90 : ℚ) / 3600 := by norm_num
    rw [harg, round2, show jsRound ((90 : ℚ) / 3600 * 100) = 3 from
      jsRound_of_bounds _ 3 (by norm_num) (by norm_num)]
    norm_num
  rw [hmap, hfil, hround]
  simp only [List.sum_cons, List.sum_nil, h1]
  norm_num
  rw [abs_of_nonneg (by norm_num : (0 : ℚ) ≤ 1 / 50)]
  norm_num

/-! ## Key reconstruction for `organizeByProject` -/

theorem append_sep_inj {sep : Char} :
    ∀ {a c b d : List Char}, sep ∉ a → sep ∉ c →
      a ++ sep :: b = c ++ sep :: d → a = c ∧ b = d := by
  intro a
  induction a with
  | nil =>
    intro c b d _ hc h
    cases c with
    | nil => simpa using h
    | cons y ys =>
      rw [List.nil_append, List.cons_append, List.cons_eq_cons] at h
      exact absurd (h.1 ▸ List.mem_cons_self y ys) hc
  | cons x xs ih =>
    intro c b d ha hc h
    cases c with
    | nil =>
      rw [List.nil_append, List.cons_append, List.cons_eq_cons] at h
      exact absurd (h.1.symm ▸ List.mem_cons_self x xs) ha
    | cons y ys =>
      rw [List.cons_append, List.cons_append, List.cons_eq_cons] at h
      obtain ⟨rfl, h2⟩ := h
      have ha2 : sep ∉ xs := fun hm => ha (List.mem_cons_of_mem _ hm)
      have hc2 : sep ∉ ys := fun hm => hc (List.mem_cons_of_mem _ hm)
      obtain ⟨rfl, hbd⟩ := ih ha2 hc2 h2
      exact ⟨rfl, hbd⟩

/-- The key `` `${projectId}|${projectName}` `` as a function of the
(projectId, projectName) pair. -/
def pairKey (p : Option Nat × String) : String :=
  (match p.1 with
   | some pid => jsNatToString pid
   | none => "null") ++ "|" ++ p.2

theorem summaryKey_eq_pairKey (s : ProjectDaySummary) :
    summaryKey s = pairKey (s.projectId, s.projectName) := rfl

theorem bar_not_mem_idString (o : Option Nat) :
    '|' ∉ (match o with
           | some pid => jsNatToString pid
           | none => "null").data := by
  cases o with
  | none => decide
  | some pid => exact bar_not_mem_jsNatToString pid

theorem idString_inj {o1 o2 : Option Nat}
    (h : (match o1 with
          | some pid => jsNatToString pid
          | none => "null") =
         (match o2 with
          | some pid => jsNatToString pid
          | none => "null")) : o1 = o2 := by
  cases o1 with
  | none =>
    cases o2 with
    | none => rfl
    | some p2 => exact absurd h.symm (jsNatToString_ne_null p2)
  | some p1 =>
    cases o2 with
    | none => exact absurd h (jsNatToString_ne_null p1)
    | some p2 => rw [jsNatToString_injective h]

theorem pairKey_injective : Function.Injective pairKey := by
  intro p1 p2 h
  obtain ⟨i1, n1⟩ := p1
  obtain ⟨i2, n2⟩ := p2
  have hdata := congrArg String.data h
  simp only [pairKey, String.data_append] at hdata
  rw [List.append_assoc, List.append_assoc, List.singleton_append,
    List.singleton_append] at hdata
  obtain ⟨hid, hname⟩ :=
    append_sep_inj (bar_not_mem_idString i1) (bar_not_mem_idString i2) hdata
  have hideq := idString_inj (string_eq_of_data hid)
  have hnameeq := string_eq_of_data hname
  simp only at hideq hnameeq
  rw [hideq, hnameeq]

theorem dedup_length_map_inj {α β : Type} [DecidableEq α] [DecidableEq β]
    {f : α → β} (hf : Function.Injective f) (l : List α) :
    ((l.map f).dedup).length = (l.dedup).length := by
  induction l with
  | nil => simp
  | cons a rest ih =>
    by_cases h : a ∈ rest
    · rw [List.map_cons, List.dedup_cons_of_mem (List.mem_map_of_mem f h),
        List.dedup_cons_of_mem h, ih]
    · have hnm : f a ∉ rest.map f := by
        intro hm
        rcases List.mem_map.mp hm with ⟨b, hb, he⟩
        exact h (hf he ▸ hb)
      rw [List.map_cons, List.dedup_cons_of_not_mem hnm,
        List.dedup_cons_of_not_mem h, List.length_cons, List.length_cons, ih]

theorem groupFold_length {κ α : Type} [DecidableEq κ] [DecidableEq α]
    (keyOf : α → κ) (l : List α) :
    (groupFold keyOf l []).length = ((l.map keyOf).dedup).length := by
  have h1 : ((groupFold keyOf l []).map Prod.fst).Nodup :=
    nodup_keys_groupFold keyOf l [] (by simp)
  have h2 : ((l.map keyOf).dedup).Nodup := List.nodup_dedup _
  have hmem : ∀ k, k ∈ (groupFold keyOf l []).map Prod.fst ↔ k ∈ (l.map keyOf).dedup := by
    intro k
    rw [mem_keys_groupFold, List.mem_dedup]
    simp
  have hperm := (List.perm_ext_iff_of_nodup h1 h2).mpr hmem
  calc (groupFold keyOf l []).length
      = ((groupFold keyOf l []).map Prod.fst).length := (List.length_map _ _).symm
    _ = ((l.map keyOf).dedup).length := hperm.length_eq

theorem summaryKey_split (fs : ProjectDaySummary) (hbar : '|' ∉ fs.projectName.data) :
    jsSplit '|' (summaryKey fs) =
      [(match fs.projectId with
        | some pid => jsNatToString pid
        | none => "null"), fs.projectName] := by
  rw [summaryKey, jsSplit_key _ _ (bar_not_mem_idString fs.projectId),
    jsSplit_head_of_not_mem hbar]

theorem buildProjectSummary_projectId (dayNames : List (String × String))
    (kv : String × List ProjectDaySummary) :
    (buildProjectSummary dayNames kv).projectId =
      (if (jsSplit '|' kv.1).getD 0 "" = "null" then none
       else some (parseIntNat ((jsSplit '|' kv.1).getD 0 ""))) := rfl

theorem buildProjectSummary_projectName (dayNames : List (String × String))
    (kv : String × List ProjectDaySummary) :
    (buildProjectSummary dayNames kv).projectName = (jsSplit '|' kv.1).getD 1 "" := rfl

/-- On a bucket keyed by `summaryKey fs` with a bar-free project name, the
built `ProjectSummary` recovers `fs`'s id and name exactly. -/
theorem buildProjectSummary_fields (dayNames : List (String × String))
    (fs : ProjectDaySummary) (vs : List ProjectDaySummary)
    (hbar : '|' ∉ fs.projectName.data) :
    (buildProjectSummary dayNames (summaryKey fs, vs)).projectId = fs.projectId ∧
    (buildProjectSummary dayNames (summaryKey fs, vs)).projectName = fs.projectName := by
  rw [buildProjectSummary_projectId, buildProjectSummary_projectName]
  have hsplit : jsSplit '|' (summaryKey fs, vs).1 =
      [(match fs.projectId with
        | some pid => jsNatToString pid
        | none => "null"), fs.projectName] := summaryKey_split fs hbar
  rw [hsplit]
  cases hid : fs.projectId with
  | none => simp
  | some pid =>
    constructor
    · show (if jsNatToString pid = "null" then none
        else some (parseIntNat (jsNatToString pid))) = some pid
      rw [if_neg (jsNatToString_ne_null pid), parseIntNat_jsNatToString]
    · rfl

theorem organizeByProject_eq (summaries : List ProjectDaySummary)
    (allDates : List String) (dayNames : List (String × String)) :
    organizeByProject summaries allDates dayNames =
      List.insertionSort (fun a b => localeLe a.projectName b.projectName)
        ((groupFold summaryKey summaries []).map (buildProjectSummary dayNames)) := rfl

/-- C5 (amended): `organizeByProject` produces exactly one `ProjectSummary`
per distinct (projectId, projectName) pair of the input; provided no
projectName contains `'|'`, each output's projectId and projectName equal
such a pair and every input pair is represented.  Summaries with a null
projectId merge only per distinct projectName (the key is
`` `null|${projectName}` ``), not globally. -/
theorem C5_organizeByProject_pairs (summaries : List ProjectDaySummary)
    (allDates : List String) (dayNames : List (String × String))
    (hbar : ∀ fs ∈ summaries, '|' ∉ fs.projectName.data) :
    (organizeByProject summaries allDates dayNames).length =
      ((summaries.map (fun s => (s.projectId, s.projectName))).dedup).length ∧
    (∀ ps ∈ organizeByProject summaries allDates dayNames,
      ∃ fs ∈ summaries, ps.projectId = fs.projectId ∧ ps.projectName = fs.projectName) ∧
    (∀ fs ∈ summaries,
      ∃ ps ∈ organizeByProject summaries allDates dayNames,
        ps.projectId = fs.projectId ∧ ps.projectName = fs.projectName) := by
  refine ⟨?_, ?_, ?_⟩
  · rw [organizeByProject_eq, List.length_insertionSort, List.length_map,
      groupFold_length summaryKey summaries]
    have hcomp : summaries.map summaryKey =
        (summaries.map (fun s => (s.projectId, s.projectName))).map pairKey := by
      rw [List.map_map]
      rfl
    rw [hcomp, dedup_length_map_inj pairKey_injective]
  · intro ps hps
    rw [organizeByProject_eq, List.mem_insertionSort] at hps
    rcases List.mem_map.mp hps with ⟨kv, hkv, rfl⟩
    have hkey : kv.1 ∈ (groupFold summaryKey summaries []).map Prod.fst :=
      List.mem_map_of_mem Prod.fst hkv
    rw [mem_keys_groupFold] at hkey
    rcases hkey with hkey | hkey
    · simp at hkey
    · rcases List.mem_map.mp hkey with ⟨fs, hfs, hfskey⟩
      obtain ⟨k, vs⟩ := kv
      simp only at hfskey
      subst hfskey
      obtain ⟨h1, h2⟩ := buildProjectSummary_fields dayNames fs vs (hbar fs hfs)
      exact ⟨fs, hfs, h1, h2⟩
  · intro fs hfs
    have hkey : summaryKey fs ∈ (groupFold summaryKey summaries []).map Prod.fst := by
      rw [mem_keys_groupFold]
      exact Or.inr (List.mem_map_of_mem summaryKey hfs)
    rcases List.mem_map.mp hkey with ⟨kv, hkv, hfst⟩
    refine ⟨buildProjectSummary dayNames kv, ?_, ?_⟩
    · rw [organizeByProject_eq, List.mem_insertionSort]
      exact List.mem_map_of_mem (buildProjectSummary dayNames) hkv
    · obtain ⟨k, vs⟩ := kv
      simp only at hfst
      subst hfst
      exact buildProjectSummary_fields dayNames fs vs (hbar fs hfs)

theorem C5_organizeByProject_pairs_witness :
    (organizeByProject [⟨some 1, "P1", "2026-01-12", 1, "A"⟩] [] []).length =
      ((([⟨some 1, "P1", "2026-01-12", 1, "A"⟩] : List ProjectDaySummary).map
        (fun s => (s.projectId, s.projectName))).dedup).length ∧
    (∀ ps ∈ organizeByProject [⟨some 1, "P1", "2026-01-12", 1, "A"⟩] [] [],
      ∃ fs ∈ ([⟨some 1, "P1", "2026-01-12", 1, "A"⟩] : List ProjectDaySummary),
        ps.projectId = fs.projectId ∧ ps.projectName = fs.projectName) ∧
    (∀ fs ∈ ([⟨some 1, "P1", "2026-01-12", 1, "A"⟩] : List ProjectDaySummary),
      ∃ ps ∈ organizeByProject [⟨some 1, "P1", "2026-01-12", 1, "A"⟩] [] [],
        ps.projectId = fs.projectId ∧ ps.projectName = fs.projectName) :=
  C5_organizeByProject_pairs [⟨some 1, "P1", "2026-01-12", 1, "A"⟩] [] [] (by decide)

/-- C5 counterexample: a projectName containing `'|'` is truncated at the
first `'|'` when the grouping key is split back apart (so names are not
preserved verbatim), and two null-projectId summaries with different names
yield two `ProjectSummary` records instead of merging into one. -/
theorem C5_organizeByProject_pairs_counterexample :
    ((organizeByProject [⟨none, "A|B", "2026-01-12", 1, ""⟩,
        ⟨none, "C", "2026-01-12", 1, ""⟩] [] []).map
      (fun p => (p.projectId, p.projectName)) =
      [(none, "A"), (none, "C")]) ∧
    ("A|B" : String) ≠ "A" ∧
    (organizeByProject [⟨none, "A|B", "2026-01-12", 1, ""⟩,
        ⟨none, "C", "2026-01-12", 1, ""⟩] [] []).length ≠ 1 := by
  refine ⟨by decide, by decide, by decide⟩

theorem buildProjectSummary_days (dayNames : List (String × String))
    (kv : String × List ProjectDaySummary) :
    (buildProjectSummary dayNames kv).days =
      (List.insertionSort (fun a b => localeLe a.date b.date) kv.2).map (fun pd =>
        { date := pd.date
          dayName := jsOrEmpty (assocFind dayNames pd.date)
          totalHours := pd.totalHours
          descriptions := pd.descriptions }) := rfl

theorem buildProjectSummary_totalHours (dayNames : List (String × String))
    (kv : String × List ProjectDaySummary) :
    (buildProjectSummary dayNames kv).totalHours =
      round2 ((((buildProjectSummary dayNames kv).days).map
        (fun de => de.totalHours)).sum) := by
  have h : (buildProjectSummary dayNames kv).totalHours =
      round2 ((buildProjectSummary dayNames kv).days.foldl
        (fun sum day => sum + day.totalHours) 0) := rfl
  rw [h]
  have h2 := foldl_add_eq (fun de : DayEntry => de.totalHours)
    (buildProjectSummary dayNames kv).days 0
  rw [h2, zero_add]

/-- C6 (amended): every `ProjectSummary` of `organizeByProject` has its days
sorted by date ascending and its `totalHours` equal to the re-rounded sum of
its days' (already rounded) `totalHours`; the returned list is sorted by
`projectName` ascending; and — provided no input projectName contains `'|'`
(see the counterexample, where the name is truncated at the first `'|'`) —
every `ProjectSummary` carries the id and name of a project present in the
input flat list. -/
theorem C6_organizeByProject_structure (summaries : List ProjectDaySummary)
    (allDates : List String) (dayNames : List (String × String))
    (hbar : ∀ fs ∈ summaries, '|' ∉ fs.projectName.data) :
    List.Sorted (fun a b : ProjectSummary => localeLe a.projectName b.projectName)
      (organizeByProject summaries allDates dayNames) ∧
    (∀ ps ∈ organizeByProject summaries allDates dayNames,
      List.Sorted (fun a b : DayEntry => localeLe a.date b.date) ps.days ∧
      ps.totalHours = round2 ((ps.days.map (fun de => de.totalHours)).sum) ∧
      ∃ fs ∈ summaries, ps.projectId = fs.projectId ∧ ps.projectName = fs.projectName) := by
  constructor
  · rw [organizeByProject_eq]
    exact List.sorted_insertionSort _ _
  · intro ps hps
    rw [organizeByProject_eq, List.mem_insertionSort] at hps
    rcases List.mem_map.mp hps with ⟨kv, hkv, rfl⟩
    refine ⟨?_, buildProjectSummary_totalHours dayNames kv, ?_⟩
    · rw [buildProjectSummary_days]
      have hsorted : List.Sorted (fun a b : ProjectDaySummary => localeLe a.date b.date)
          (List.insertionSort (fun a b => localeLe a.date b.date) kv.2) :=
        List.sorted_insertionSort _ _
      rw [List.Sorted, List.pairwise_map]
      exact hsorted
    · have hkey : kv.1 ∈ (groupFold summaryKey summaries []).map Prod.fst :=
        List.mem_map_of_mem Prod.fst hkv
      rw [mem_keys_groupFold] at hkey
      rcases hkey with hkey | hkey
      · simp at hkey
      · rcases List.mem_map.mp hkey with ⟨fs, hfs, hfskey⟩
        obtain ⟨k, vs⟩ := kv
        simp only at hfskey
        subst hfskey
        obtain ⟨h1, h2⟩ := buildProjectSummary_fields dayNames fs vs (hbar fs hfs)
        exact ⟨fs, hfs, h1, h2⟩

theorem C6_organizeByProject_structure_witness :
    List.Sorted (fun a b : ProjectSummary => localeLe a.projectName b.projectName)
      (organizeByProject [⟨some 1, "P1", "2026-01-12", 1, "A"⟩,
        ⟨some 2, "P2", "2026-01-12", 2, "B"⟩] ["2026-01-12"] []) ∧
    (∀ ps ∈ organizeByProject [⟨some 1, "P1", "2026-01-12", 1, "A"⟩,
        ⟨some 2, "P2", "2026-01-12", 2, "B"⟩] ["2026-01-12"] [],
      List.Sorted (fun a b : DayEntry => localeLe a.date b.date) ps.days ∧
      ps.totalHours = round2 ((ps.days.map (fun de => de.totalHours)).sum) ∧
      ∃ fs ∈ ([⟨some 1, "P1", "2026-01-12", 1, "A"⟩,
          ⟨some 2, "P2", "2026-01-12", 2, "B"⟩] : List ProjectDaySummary),
        ps.projectId = fs.projectId ∧ ps.projectName = fs.projectName) :=
  C6_organizeByProject_structure
    [⟨some 1, "P1", "2026-01-12", 1, "A"⟩, ⟨some 2, "P2", "2026-01-12", 2, "B"⟩]
    ["2026-01-12"] [] (by decide)

/-- C6 counterexample: with a projectName containing `'|'`, the output
carries a projectName (`"A"`, truncated at the first `'|'`) that no summary
of the input flat list has — the output then does mention a project absent
from the input. -/
theorem C6_organizeByProject_structure_counterexample :
    ((organizeByProject [⟨some 1, "A|B", "2026-01-12", 1, ""⟩] [] []).map
      (fun p => p.projectName) = ["A"]) ∧
    (∀ fs ∈ ([⟨some 1, "A|B", "2026-01-12", 1, ""⟩] : List ProjectDaySummary),
      fs.projectName ≠ "A") := by
  refine ⟨by decide, by decide⟩

/-! ## Permutation invariance (C8) -/

theorem calculateTotalHours_perm {vs2 vs : List TogglTimeEntry}
    (h : List.Perm vs2 vs) : calculateTotalHours vs2 = calculateTotalHours vs := by
  rw [calculateTotalHours_eq, calculateTotalHours_eq,
    (h.map (fun e => e.duration)).sum_eq]

theorem strip_buildPDS_congr (projectsMap : List (Nat × TogglProject)) (k : String)
    {vs2 vs : List TogglTimeEntry} (hp : List.Perm vs2 vs) :
    ((buildProjectDaySummary projectsMap (k, vs2)).projectId,
     (buildProjectDaySummary projectsMap (k, vs2)).projectName,
     (buildProjectDaySummary projectsMap (k, vs2)).date,
     (buildProjectDaySummary projectsMap (k, vs2)).totalHours) =
    ((buildProjectDaySummary projectsMap (k, vs)).projectId,
     (buildProjectDaySummary projectsMap (k, vs)).projectName,
     (buildProjectDaySummary projectsMap (k, vs)).date,
     (buildProjectDaySummary projectsMap (k, vs)).totalHours) := by
  have hth : (buildProjectDaySummary projectsMap (k, vs2)).totalHours =
      (buildProjectDaySummary projectsMap (k, vs)).totalHours := by
    show calculateTotalHours vs2 = calculateTotalHours vs
    exact calculateTotalHours_perm hp
  rw [hth]
  rfl

/-- A key-grouped fold is the map over its own (nodup) key list pairing each
key with the filter of the input at that key. -/
theorem groupFold_eq_keys_map {κ α : Type} [DecidableEq κ] [DecidableEq α]
    (keyOf : α → κ) (l : List α) :
    groupFold keyOf l [] =
      ((groupFold keyOf l []).map Prod.fst).map
        (fun k => (k, l.filter (fun e => keyOf e = k))) := by
  conv_lhs => rw [← List.map_id (groupFold keyOf l [])]
  rw [List.map_map]
  apply List.map_congr_left
  intro kv hkv
  obtain ⟨k, vs⟩ := kv
  have hb := (bucket_eq_filter keyOf l hkv).1
  simp only [id, Function.comp]
  rw [hb]

theorem keys_groupFold_perm {κ α : Type} [DecidableEq κ] [DecidableEq α]
    (keyOf : α → κ) {l2 l : List α} (h : List.Perm l2 l) :
    List.Perm ((groupFold keyOf l2 []).map Prod.fst)
      ((groupFold keyOf l []).map Prod.fst) := by
  have h1 : ((groupFold keyOf l2 []).map Prod.fst).Nodup :=
    nodup_keys_groupFold keyOf l2 [] (by simp)
  have h2 : ((groupFold keyOf l []).map Prod.fst).Nodup :=
    nodup_keys_groupFold keyOf l [] (by simp)
  refine (List.perm_ext_iff_of_nodup h1 h2).mpr ?_
  intro k
  rw [mem_keys_groupFold, mem_keys_groupFold]
  have hm := (h.map keyOf).mem_iff (a := k)
  simp only [List.map_nil, List.not_mem_nil, false_or]
  exact hm

/-- Mapping a bucket-insensitive function over two groupings of permuted
inputs yields permuted outputs. -/
theorem map_groupFold_perm_of_bucket_congr {κ α β : Type} [DecidableEq κ]
    [DecidableEq α] (keyOf : α → κ) (g2 g : (κ × List α) → β) {l2 l : List α}
    (hp : List.Perm l2 l)
    (hcong : ∀ k, g2 (k, l2.filter (fun e => keyOf e = k)) =
      g (k, l.filter (fun e => keyOf e = k))) :
    List.Perm ((groupFold keyOf l2 []).map g2) ((groupFold keyOf l []).map g) := by
  have e2 : (groupFold keyOf l2 []).map g2 =
      ((groupFold keyOf l2 []).map Prod.fst).map
        (fun k => g2 (k, l2.filter (fun e => keyOf e = k))) := by
    conv_lhs => rw [groupFold_eq_keys_map keyOf l2]
    rw [List.map_map]
    rfl
  have e1 : (groupFold keyOf l []).map g =
      ((groupFold keyOf l []).map Prod.fst).map
        (fun k => g (k, l.filter (fun e => keyOf e = k))) := by
    conv_lhs => rw [groupFold_eq_keys_map keyOf l]
    rw [List.map_map]
    rfl
  rw [e2, e1, funext hcong]
  exact (keys_groupFold_perm keyOf hp).map _

/-- C8 (amended): permuting the input entries permutes the
description-stripped summaries: the multiset of
(projectId, projectName, date, totalHours) produced by
`aggregateTimeEntries` is invariant under any permutation of the entry
list.  (Descriptions strings and the relative order of same-named projects
are NOT invariant; see the counterexample.) -/
theorem C8_pipeline_permutation (ed : String → String)
    (projectsMap : List (Nat × TogglProject)) (l2 l : List TogglTimeEntry)
    (hperm : List.Perm l2 l) :
    List.Perm
      ((aggregateTimeEntries ed l2 projectsMap).map
        (fun s => (s.projectId, s.projectName, s.date, s.totalHours)))
      ((aggregateTimeEntries ed l projectsMap).map
        (fun s => (s.projectId, s.projectName, s.date, s.totalHours))) := by
  have hpf : List.Perm (l2.filter (fun e => ! decide (e.duration < 0)))
      (l.filter (fun e => ! decide (e.duration < 0))) := hperm.filter _
  rw [aggregateTimeEntries, aggregateTimeEntries,
    groupByProjectAndDay_eq_groupFold, groupByProjectAndDay_eq_groupFold,
    List.map_map, List.map_map]
  exact map_groupFold_perm_of_bucket_congr (entryKey ed) _ _ hpf
    (fun k => strip_buildPDS_congr projectsMap k (hpf.filter _))

/-- C8 counterexample: swapping two same-group entries with different
descriptions changes the aggregated descriptions string, so the pipeline's
final output is not invariant under permutation of its input. -/
theorem C8_pipeline_permutation_counterexample :
    ((organizeByDay (aggregateTimeEntries (fun _ => "2026-01-12")
        [⟨some 1, "t", 60, some "x"⟩, ⟨some 1, "t", 60, some "y"⟩] [])
        ["2026-01-12"] []).map
      (fun ds => ds.projects.map (fun p => p.descriptions)) = [["x / \ny"]]) ∧
    ((organizeByDay (aggregateTimeEntries (fun _ => "2026-01-12")
        [⟨some 1, "t", 60, some "y"⟩, ⟨some 1, "t", 60, some "x"⟩] [])
        ["2026-01-12"] []).map
      (fun ds => ds.projects.map (fun p => p.descriptions)) = [["y / \nx"]]) ∧
    organizeByDay (aggregateTimeEntries (fun _ => "2026-01-12")
        [⟨some 1, "t", 60, some "x"⟩, ⟨some 1, "t", 60, some "y"⟩] [])
        ["2026-01-12"] [] ≠
      organizeByDay (aggregateTimeEntries (fun _ => "2026-01-12")
        [⟨some 1, "t", 60, some "y"⟩, ⟨some 1, "t", 60, some "x"⟩] [])
        ["2026-01-12"] [] := by
  refine ⟨by decide, by decide, ?_⟩
  intro h
  have h2 := congrArg
    (fun out => out.map (fun ds => ds.projects.map (fun p => p.descriptions))) h
  exact absurd h2 (by decide)

theorem C8_pipeline_permutation_witness :
    List.Perm
      ((aggregateTimeEntries (fun _ => "2026-01-12")
        [⟨some 2, "t", 30, none⟩, ⟨some 1, "t", 60, none⟩] []).map
        (fun s => (s.projectId, s.projectName, s.date, s.totalHours)))
      ((aggregateTimeEntries (fun _ => "2026-01-12")
        [⟨some 1, "t", 60, none⟩, ⟨some 2, "t", 30, none⟩] []).map
        (fun s => (s.projectId, s.projectName, s.date, s.totalHours))) :=
  C8_pipeline_permutation (fun _ => "2026-01-12") []
    [⟨some 2, "t", 30, none⟩, ⟨some 1, "t", 60, none⟩]
    [⟨some 1, "t", 60, none⟩, ⟨some 2, "t", 30, none⟩]
    (List.Perm.swap _ _ _)
